import Mathlib

/-!
Shallow embedding of the `blockchain-from-scratch` chain engine
(`src/blockchain/mod.rs`): SHA-256 hashing, blocks, the block chain with
its mining loop, transaction pool, search, and balance replay.

Machine integers are modelled as `Nat` / `Int` with explicit reductions
modulo `2 ^ w` where overflow matters.  Wall-clock timestamps
(`SystemTime::now`) are modelled as explicit `Nat` parameters of the
operations that read the clock.  The unbounded proof-of-work loop is
modelled with explicit fuel returning `Option`.
-/

set_option maxRecDepth 100000
set_option maxHeartbeats 4000000

/-! SHA-256 (the `sha2` crate's `Sha256`), over byte lists -/

def bitXor : Nat → Nat → Nat → Nat
  | 0, _, _ => 0
  | k + 1, a, b => (if a % 2 = b % 2 then 0 else 1) + 2 * bitXor k (a / 2) (b / 2)

def bitAnd : Nat → Nat → Nat → Nat
  | 0, _, _ => 0
  | k + 1, a, b => (a % 2) * (b % 2) + 2 * bitAnd k (a / 2) (b / 2)

def xor32 (a b : Nat) : Nat := bitXor 32 a b

def and32 (a b : Nat) : Nat := bitAnd 32 a b

def not32 (a : Nat) : Nat := 4294967295 - a % 4294967296

def add32 (a b : Nat) : Nat := (a + b) % 4294967296

def rotr32 (n a : Nat) : Nat := (a / 2 ^ n + a % 2 ^ n * 2 ^ (32 - n)) % 4294967296

def shr32 (n a : Nat) : Nat := a / 2 ^ n

def bigSigma0 (a : Nat) : Nat := xor32 (rotr32 2 a) (xor32 (rotr32 13 a) (rotr32 22 a))

def bigSigma1 (e : Nat) : Nat := xor32 (rotr32 6 e) (xor32 (rotr32 11 e) (rotr32 25 e))

def smallSigma0 (x : Nat) : Nat := xor32 (rotr32 7 x) (xor32 (rotr32 18 x) (shr32 3 x))

def smallSigma1 (x : Nat) : Nat := xor32 (rotr32 17 x) (xor32 (rotr32 19 x) (shr32 10 x))

def chFn (e f g : Nat) : Nat := xor32 (and32 e f) (and32 (not32 e) g)

def majFn (a b c : Nat) : Nat := xor32 (and32 a b) (xor32 (and32 a c) (and32 b c))

def shaK : List Nat := [1116352408, 1899447441, 3049323471, 3921009573, 961987163, 1508970993, 2453635748, 2870763221, 3624381080, 310598401, 607225278, 1426881987, 1925078388, 2162078206, 2614888103, 3248222580, 3835390401, 4022224774, 264347078, 604807628, 770255983, 1249150122, 1555081692, 1996064986, 2554220882, 2821834349, 2952996808, 3210313671, 3336571891, 3584528711, 113926993, 338241895, 666307205, 773529912, 1294757372, 1396182291, 1695183700, 1986661051, 2177026350, 2456956037, 2730485921, 2820302411, 3259730800, 3345764771, 3516065817, 3600352804, 4094571909, 275423344, 430227734, 506948616, 659060556, 883997877, 958139571, 1322822218, 1537002063, 1747873779, 1955562222, 2024104815, 2227730452, 2361852424, 2428436474, 2756734187, 3204031479, 3329325298]

structure Hash8 where
  a : Nat
  b : Nat
  c : Nat
  d : Nat
  e : Nat
  f : Nat
  g : Nat
  h : Nat
deriving DecidableEq, Repr

def shaH0 : Hash8 := ⟨1779033703, 3144134277, 1013904242, 2773480762, 1359893119, 2600822924, 528734635, 1541459225⟩

def be8 (n : Nat) : List Nat :=
  [n / 2 ^ 56 % 256, n / 2 ^ 48 % 256, n / 2 ^ 40 % 256, n / 2 ^ 32 % 256,
   n / 2 ^ 24 % 256, n / 2 ^ 16 % 256, n / 2 ^ 8 % 256, n % 256]

def be4 (n : Nat) : List Nat := [n / 2 ^ 24 % 256, n / 2 ^ 16 % 256, n / 2 ^ 8 % 256, n % 256]

/-- Big-endian bytes of a `u128` value (`u128::to_be_bytes`). -/
def be16 (n : Nat) : List Nat := be8 (n / 2 ^ 64) ++ be8 n

def padMessage (msg : List Nat) : List Nat :=
  msg ++ 128 :: List.replicate ((119 - msg.length % 64) % 64) 0 ++ be8 (msg.length * 8)

def toWords : List Nat → List Nat
  | b0 :: b1 :: b2 :: b3 :: rest => (((b0 * 256 + b1) * 256 + b2) * 256 + b3) :: toWords rest
  | _ => []

def chunkWords : Nat → List Nat → List (List Nat)
  | 0, _ => []
  | _, [] => []
  | k + 1, w :: ws => (w :: ws).take 16 :: chunkWords k ((w :: ws).drop 16)

def extendW : Nat → Array Nat → Array Nat
  | 0, w => w
  | k + 1, w =>
    let s := w.size
    let nw := add32 (add32 (smallSigma1 (w.getD (s - 2) 0)) (w.getD (s - 7) 0))
                    (add32 (smallSigma0 (w.getD (s - 15) 0)) (w.getD (s - 16) 0))
    extendW k (w.push nw)

def roundStep (k w : Nat) (s : Hash8) : Hash8 :=
  let t1 := add32 s.h (add32 (bigSigma1 s.e) (add32 (chFn s.e s.f s.g) (add32 k w)))
  let t2 := add32 (bigSigma0 s.a) (majFn s.a s.b s.c)
  ⟨add32 t1 t2, s.a, s.b, s.c, add32 s.d t1, s.e, s.f, s.g⟩

def roundsGo : List Nat → List Nat → Hash8 → Hash8
  | k :: ks, w :: ws, s => roundsGo ks ws (roundStep k w s)
  | _, _, s => s

def processChunk (h : Hash8) (ws : List Nat) : Hash8 :=
  let w64 := extendW 48 (Array.mk ws)
  let f := roundsGo shaK w64.toList h
  ⟨add32 h.a f.a, add32 h.b f.b, add32 h.c f.c, add32 h.d f.d,
   add32 h.e f.e, add32 h.f f.f, add32 h.g f.g, add32 h.h f.h⟩

def sha256 (msg : List Nat) : List Nat :=
  let chunks := chunkWords (msg.length + 9) (toWords (padMessage msg))
  let h := chunks.foldl processChunk shaH0
  be4 h.a ++ be4 h.b ++ be4 h.c ++ be4 h.d ++ be4 h.e ++ be4 h.f ++ be4 h.g ++ be4 h.h

/-! Transaction (`src/blockchain/transaction.rs`, absent from the sources)

Only `mod transaction;`, the `Serialization` trait and the call sites are
in the sources; the module body itself is missing.  The codec below is
therefore modelled from the spec. -/

structure Transaction where
  sender_address : List Nat
  recipient_address : List Nat
  value : Nat
deriving DecidableEq, Repr

/-- Modelled from the spec: `transaction.rs` is absent from the sources.
Spec 4.1: `encode` is a "deterministic concatenation of the three fields
in fixed order, each field either fixed-width (value) or length-implicit
(addresses consume a known/fixed slice or are delimited consistently so
decode is unambiguous)".  Each address is preceded by its 8-byte
big-endian length; the unsigned 64-bit value is 8 bytes big-endian. -/
def Transaction.serialization (t : Transaction) : List Nat :=
  be8 t.sender_address.length ++ t.sender_address ++
  be8 t.recipient_address.length ++ t.recipient_address ++
  be8 t.value

def fromBE (l : List Nat) : Nat := l.foldl (fun a b => a * 256 + b) 0

/-- Modelled from the spec: `transaction.rs` is absent from the sources.
Spec 4.1: `decode` is the "exact inverse of `encode`; fails with a
`DecodeError` if the byte string is shorter than the minimum required
layout". -/
def Transaction.deserialization (bytes : List Nat) : Option Transaction :=
  if bytes.length < 8 then none
  else
    let ls := fromBE (bytes.take 8)
    let r1 := bytes.drop 8
    if r1.length < ls + 8 then none
    else
      let sender := r1.take ls
      let r2 := (r1.drop ls).drop 8
      let lr := fromBE ((r1.drop ls).take 8)
      if r2.length < lr + 8 then none
      else
        let recipient := r2.take lr
        let r3 := r2.drop lr
        some ⟨sender, recipient, fromBE (r3.take 8)⟩

/-! Block -/

structure Block where
  nonce : Int
  previous_hash : List Nat
  time_stamp : Nat
  transactions : List (List Nat)
deriving DecidableEq, Repr

def defaultBlock : Block := ⟨0, [], 0, []⟩

/-- Rust `Block::new`.  `SystemTime::now` (nanoseconds since the epoch) is
modelled as the explicit argument `time_now`. -/
def Block.new (nonce : Int) (previous_hash : List Nat) (time_now : Nat) : Block :=
  ⟨nonce, previous_hash, time_now, []⟩

/-- Rust `i32::to_be_bytes`: big-endian two's-complement bytes. -/
def i32be (n : Int) : List Nat := be4 (n % 4294967296).toNat

/-- Rust `Block::hash`: SHA-256 over nonce bytes, previous hash, timestamp
bytes, then every encoded transaction in order. -/
def Block.hash (b : Block) : List Nat :=
  sha256 (i32be b.nonce ++ b.previous_hash ++ be16 b.time_stamp ++ b.transactions.flatten)

/-- Rust `impl AddAssign<i32> for Block`: `self.nonce += rhs`.  Modelled with
two's-complement wrap-around at 32 bits (the mining loop starts the nonce
at 0, so the wrap is never reached below `i32::MAX`). -/
def Block.add_assign (b : Block) (rhs : Int) : Block :=
  { b with nonce := (b.nonce + rhs + 2147483648) % 4294967296 - 2147483648 }

/-- Rust `impl PartialEq for Block`: the source computes `self.hash()` for
BOTH `self_hash` and `other_hash` (`let other_hash: Vec<u8> =
self.hash();`), so `other` is never consulted. -/
def blockEq (a other : Block) : Bool :=
  let self_hash := Block.hash a
  let other_hash := Block.hash a
  self_hash == other_hash

/-! Block search -/

inductive BlockSearch where
  | SearchByIndex (i : Nat)
  | SearchByPreviousHash (h : List Nat)
  | SearchByBlockHash (h : List Nat)
  | SearchByNonce (n : Int)
  | SearchByTimestamp (t : Nat)
  | SearchByTransaction (tx : List Nat)
deriving DecidableEq, Repr

/-- Rust `BlockSearchResult`; `Success` holds the found block (a reference in
the source). -/
inductive BlockSearchResult where
  | Success (b : Block)
  | FailOfEmptyBlocks
  | FailOfIndex (i : Nat)
  | FailOfPreviousHash (h : List Nat)
  | FailOfBlockHash (h : List Nat)
  | FailOfNonce (n : Int)
  | FailOfTimestamp (t : Nat)
  | FailOfTransaction (tx : List Nat)
deriving DecidableEq, Repr

/-! BlockChain -/

structure BlockChain where
  transaction_pool : List (List Nat)
  chain : List Block
  blockchain_address : List Nat
deriving DecidableEq, Repr

def BlockChain.DIFFICULTY : Nat := 3

/-- The bytes of `"THE BLOCKCHAIN"`. -/
def BlockChain.MINING_SENDER : List Nat := [84, 72, 69, 32, 66, 76, 79, 67, 75, 67, 72, 65, 73, 78]

def BlockChain.MINING_REWARD : Nat := 1

/-- Lowercase hex digit of a value below 16 (codepoint arithmetic:
48 is the code of the zero digit, 87 + 10 the code of the letter a). -/
def hexDigit (d : Nat) : Char := Char.ofNat (if d < 10 then 48 + d else 87 + d)

/-- Rust `hex::encode`, the `String` modelled as its character list. -/
def hex_encode (h : List Nat) : List Char :=
  (h.map (fun b => [hexDigit (b / 16), hexDigit (b % 16)])).flatten

/-- Outcome of a call that may hit a Rust `panic!` / `unwrap` abort:
a panic is process-fatal, not a recoverable result value. -/
inductive PanicOr (α : Type) where
  | panicked (msg : String) : PanicOr α
  | ok (val : α) : PanicOr α
deriving DecidableEq

/-- Rust `BlockChain::last_block`, mirroring its three branches. -/
def BlockChain.last_block (bc : BlockChain) : PanicOr Block :=
  if bc.chain.isEmpty then .panicked ("Blockchain is empty")
  else if bc.chain.length = 1 then .ok (bc.chain.getD (bc.chain.length - 1) defaultBlock)
  else
    match bc.chain.getLast? with
    | some b => .ok b
    | none => .panicked ("called Option unwrap on a None value")

/-- Rust `BlockChain::do_proof_of_work`: retry until the hex digest starts
with `DIFFICULTY` `'0'` characters, incrementing the nonce each round.
The unbounded `loop` is modelled with fuel; `none` means fuel ran out. -/
def BlockChain.do_proof_of_work : Nat → Block → Option (List Char × Block)
  | 0, _ => none
  | fuel + 1, block =>
    let hash_str := hex_encode (Block.hash block)
    if hash_str.take BlockChain.DIFFICULTY = List.replicate BlockChain.DIFFICULTY '0'
    then some (hash_str, block)
    else BlockChain.do_proof_of_work fuel (block.add_assign 1)

/-- Rust `BlockChain::create_block`: new block at nonce 0, pool copied in
order then cleared, proof of work, block appended.  `t` is the wall
clock read inside `Block::new`. -/
def BlockChain.create_block (bc : BlockChain) (previous_hash : List Nat) (t : Nat) (fuel : Nat) :
    Option BlockChain :=
  let b := Block.new 0 previous_hash t
  let b := { b with transactions := b.transactions ++ bc.transaction_pool }
  match BlockChain.do_proof_of_work fuel b with
  | none => none
  | some (_, sealed) =>
    some { bc with transaction_pool := [], chain := bc.chain ++ [sealed] }

/-- Rust `BlockChain::add_transaction`: scan the pool for a byte-identical
encoding; silently return if found, push the encoding otherwise. -/
def BlockChain.add_transaction (bc : BlockChain) (tx : Transaction) : BlockChain :=
  if bc.transaction_pool.contains tx.serialization then bc
  else { bc with transaction_pool := bc.transaction_pool ++ [tx.serialization] }

/-- Rust `BlockChain::mining`: push the reward transaction, then seal a block
whose `previous_hash` is the digest of the last block.  The source
returns `true`; the model returns the updated chain, `none` standing for
fuel exhaustion or the (unreachable) empty-chain panic. -/
def BlockChain.mining (bc : BlockChain) (t : Nat) (fuel : Nat) : Option BlockChain :=
  let tx : Transaction := ⟨BlockChain.MINING_SENDER, bc.blockchain_address, BlockChain.MINING_REWARD⟩
  let bc1 := bc.add_transaction tx
  match bc1.last_block with
  | .panicked _ => none
  | .ok b => bc1.create_block (Block.hash b) t fuel

/-- Rust `BlockChain::new`: empty pool and chain, push the genesis block
`Block::new(0, vec![0 as u8, 32])` — the two-byte vector `[0, 32]` —
then run one mining cycle.  `t0` and `t1` are the wall-clock reads of
the genesis block and of the first mined block. -/
def BlockChain.new (address : List Nat) (t0 t1 : Nat) (fuel : Nat) : Option BlockChain :=
  let bc : BlockChain := ⟨[], [], address⟩
  let b := Block.new 0 [0, 32] t0
  let bc := { bc with chain := bc.chain ++ [b] }
  bc.mining t1 fuel

/-- Predicate of one search criterion against one block, as tested by the
arms of the scan loop in `BlockChain::search_block`.  The
`SearchByIndex` arm of the loop is `unreachable!()` in the source. -/
def critMatches : BlockSearch → Block → Bool
  | .SearchByIndex _, _ => false
  | .SearchByPreviousHash h, b => b.previous_hash == h
  | .SearchByBlockHash h, b => Block.hash b == h
  | .SearchByNonce n, b => b.nonce == n
  | .SearchByTimestamp t, b => b.time_stamp == t
  | .SearchByTransaction tx, b => b.transactions.contains tx

/-- The `for (idx, block) in self.chain.iter().enumerate()` scan of
`BlockChain::search_block`: first matching block, oldest to newest. -/
def searchLoop (search : BlockSearch) : List Block → Option Block
  | [] => none
  | b :: rest => if critMatches search b then some b else searchLoop search rest

/-- Rust `BlockChain::search_block`. -/
def BlockChain.search_block (bc : BlockChain) (search : BlockSearch) : BlockSearchResult :=
  if bc.chain.isEmpty then .FailOfEmptyBlocks
  else
    match search with
    | .SearchByIndex index =>
      if bc.chain.length ≤ index then .FailOfIndex index
      else .Success (bc.chain.getD index defaultBlock)
    | _ =>
      match searchLoop search bc.chain with
      | some b => .Success b
      | none =>
        match search with
        | .SearchByIndex i => .FailOfIndex i
        | .SearchByPreviousHash h => .FailOfPreviousHash h
        | .SearchByBlockHash h => .FailOfBlockHash h
        | .SearchByNonce n => .FailOfNonce n
        | .SearchByTimestamp t => .FailOfTimestamp t
        | .SearchByTransaction tx => .FailOfTransaction tx

/-- Rust `value as i64`: reinterpret an unsigned 64-bit value as signed. -/
def i64OfU64 (v : Nat) : Int :=
  if v < 9223372036854775808 then (v : Int) else (v : Int) - 18446744073709551616

/-- Two's-complement wrap-around of an `i64` accumulation. -/
def wrap64 (n : Int) : Int := (n + 9223372036854775808) % 18446744073709551616 - 9223372036854775808

/-- The per-transaction body of `BlockChain::calculate_total_amount`:
decode, add `value` when the address is the recipient, subtract when it
is the sender.  `Transaction::deserialization` lives in the absent
`transaction.rs`; bytes that do not decode contribute nothing (chains
built by the operations above only ever store encoded transactions). -/
def txApply (address : List Nat) (total : Int) (t : List Nat) : Int :=
  match Transaction.deserialization t with
  | none => total
  | some tx =>
    let value := tx.value
    let total1 := if address = tx.recipient_address then wrap64 (total + i64OfU64 value) else total
    if address = tx.sender_address then wrap64 (total1 - i64OfU64 value) else total1

/-- Rust `BlockChain::calculate_total_amount`: `for i in 0..self.chain.len()`
with `&self[i]` (the `Index` impl), then every encoded transaction of
that block.  The Rust `String` address is modelled as its bytes. -/
def BlockChain.calculate_total_amount (bc : BlockChain) (address : List Nat) : Int :=
  (List.range bc.chain.length).foldl
    (fun total i =>
      let block := bc.chain.getD i defaultBlock
      block.transactions.foldl (txApply address) total)
    0

/-- The balance as the claim words it: the sum, over every transaction of
every block in order, of `+value` when the transaction's
`recipient_address` equals the address and `-value` when its
`sender_address` equals the address, accumulated as a signed 64-bit
integer. -/
def txStep_spec (address : List Nat) (total : Int) (t : List Nat) : Int :=
  match Transaction.deserialization t with
  | none => total
  | some tx =>
    wrap64 (wrap64 (total + (if tx.recipient_address = address then i64OfU64 tx.value else 0)) +
            (if tx.sender_address = address then -i64OfU64 tx.value else 0))

/-- Spec-side balance: a full replay of the flattened transaction
history, no cached balance state. -/
def balance_spec (bc : BlockChain) (address : List Nat) : Int :=
  ((bc.chain.map Block.transactions).flatten).foldl (txStep_spec address) 0

/-! Reachable chain states

The states produced by the public mutating operations: construction,
`mining`, `create_block` (public, with a caller-chosen previous hash)
and `add_transaction`. -/

inductive Reachable : BlockChain → Prop where
  | init (address : List Nat) (t0 t1 fuel : Nat) (bc : BlockChain) :
      BlockChain.new address t0 t1 fuel = some bc → Reachable bc
  | mine (bc : BlockChain) (t fuel : Nat) (bc' : BlockChain) :
      Reachable bc → bc.mining t fuel = some bc' → Reachable bc'
  | createB (bc : BlockChain) (ph : List Nat) (t fuel : Nat) (bc' : BlockChain) :
      Reachable bc → bc.create_block ph t fuel = some bc' → Reachable bc'
  | addTx (bc : BlockChain) (tx : Transaction) :
      Reachable bc → Reachable (bc.add_transaction tx)

/-- Reachability through the chain lifecycle only — `create_block` is
exercised solely by `mining`, never directly with an arbitrary
previous hash. -/
inductive ReachableCore : BlockChain → Prop where
  | init (address : List Nat) (t0 t1 fuel : Nat) (bc : BlockChain) :
      BlockChain.new address t0 t1 fuel = some bc → ReachableCore bc
  | mine (bc : BlockChain) (t fuel : Nat) (bc' : BlockChain) :
      ReachableCore bc → bc.mining t fuel = some bc' → ReachableCore bc'
  | addTx (bc : BlockChain) (tx : Transaction) :
      ReachableCore bc → ReachableCore (bc.add_transaction tx)

/-- The proof-of-work acceptance test of `do_proof_of_work`, as a
predicate on a block: the hex digest starts with `DIFFICULTY` `'0'`
characters. -/
def powOkP (b : Block) : Prop :=
  (hex_encode (Block.hash b)).take BlockChain.DIFFICULTY = List.replicate BlockChain.DIFFICULTY '0'

instance (b : Block) : Decidable (powOkP b) := by unfold powOkP; infer_instance

/-- The value range of an `i64`. -/
def i64InRange (n : Int) : Prop := -9223372036854775808 ≤ n ∧ n < 9223372036854775808

/-! Concrete states used by witnesses and counterexamples

The timestamps are chosen so that the proof-of-work search succeeds at
nonce 0, keeping the fuel needed at 1. -/

def demoGenesis : Block := ⟨0, [0, 32], 1700000000000000000, []⟩

/-- Encoding of the reward transaction `("THE BLOCKCHAIN", "a", 1)`. -/
def demoRewardEnc : List Nat := [0, 0, 0, 0, 0, 0, 0, 14, 84, 72, 69, 32, 66, 76, 79, 67, 75, 67, 72, 65, 73, 78, 0, 0, 0, 0, 0, 0, 0, 1, 97, 0, 0, 0, 0, 0, 0, 0, 1]

def demoBlock1 : Block := ⟨0, [222, 73, 122, 156, 34, 254, 255, 243, 71, 139, 104, 103, 19, 228, 157, 158, 239, 18, 58, 91, 154, 172, 7, 165, 31, 179, 110, 27, 104, 135, 152, 167], 1700000000000018336, [demoRewardEnc]⟩

/-- The chain `BlockChain::new("a")` builds with the demo timestamps. -/
def demoBC : BlockChain := ⟨[], [demoGenesis, demoBlock1], [97]⟩

def demoBlock2 : Block := ⟨0, [], 1700000000000018462, []⟩

/-- State `demoBC` after a direct public `create_block` call with previous
hash `[]`. -/
def demoBad : BlockChain := ⟨[], [demoGenesis, demoBlock1, demoBlock2], [97]⟩

def cexBlockA : Block := ⟨0, [], 5, []⟩

def cexBlockB : Block := ⟨1, [], 5, []⟩

def emptyChainBC : BlockChain := ⟨[], [], []⟩

def wBlockA : Block := ⟨5, [1], 10, [[7]]⟩

def wBlockB : Block := ⟨7, [2], 11, []⟩

/-- A small handwritten two-block state for the search and pool
witnesses (search and the pool operations put no reachability
constraint on their input). -/
def wBC : BlockChain := ⟨[[3]], [wBlockA, wBlockB], [97]⟩

/-! Helper lemmas -/

theorem contains_iff_mem (l : List (List Nat)) (x : List Nat) :
    l.contains x = true ↔ x ∈ l := by
  simp [List.contains, List.elem_iff]

theorem add_transaction_chain (bc : BlockChain) (tx : Transaction) :
    (bc.add_transaction tx).chain = bc.chain ∧
    (bc.add_transaction tx).blockchain_address = bc.blockchain_address := by
  unfold BlockChain.add_transaction
  split <;> exact ⟨rfl, rfl⟩

theorem last_block_of_ne_nil (bc : BlockChain) (h : bc.chain ≠ []) :
    bc.last_block = .ok (bc.chain.getLast h) := by
  unfold BlockChain.last_block
  rw [if_neg (by simpa [List.isEmpty_iff] using h)]
  by_cases h1 : bc.chain.length = 1
  · rw [if_pos h1]
    congr 1
    rw [List.getD_eq_getElem _ _ (by omega), List.getLast_eq_getElem]
  · rw [if_neg h1, List.getLast?_eq_getLast_of_ne_nil h]

/-- Claim C3: for every pair of blocks, including blocks that differ in
any field, the `PartialEq` test evaluates to `true`: both sides of the
comparison are computed from the left operand alone. -/
theorem block_eq_always_true : ∀ a b : Block, blockEq a b = true := by
  intro a b
  simp [blockEq]

/-- Claim C2: evaluation of the buggy `PartialEq` at a failing input.
`cexBlockA` and `cexBlockB` differ in nonce and have distinct digests,
yet `a == b` is `true` — equality is NOT "iff the digests agree". -/
theorem block_eq_conflates_distinct_digests :
    blockEq cexBlockA cexBlockB = true ∧ Block.hash cexBlockA ≠ Block.hash cexBlockB :=
  ⟨by simp [blockEq], by decide⟩

/-- Counterexample to claim C10: on the empty chain, `last_block` is a
Rust `panic!` — a process abort, not a recoverable `EmptyChainError`
result value. -/
theorem last_block_panics_on_empty :
    emptyChainBC.last_block = .panicked ("Blockchain is empty") := by rfl

/-- Claim C10 (amended): `last_block` returns the most recently appended
block of a non-empty chain; on an empty chain it panics (process-fatal)
instead of returning a recoverable error value. -/
theorem last_block_spec (bc : BlockChain) :
    (bc.chain = [] → bc.last_block = .panicked ("Blockchain is empty")) ∧
    (∀ h : bc.chain ≠ [], bc.last_block = .ok (bc.chain.getLast h)) :=
  ⟨fun h => by simp [BlockChain.last_block, h], last_block_of_ne_nil bc⟩

/-- Witness for `last_block_spec` at the concrete two-block state. -/
theorem last_block_spec_witness :
    wBC.last_block = .ok (wBC.chain.getLast (by decide)) :=
  (last_block_spec wBC).2 (by decide)

/-- Claim C7: `add_transaction` is a no-op when a byte-identical encoding
is already pooled, appends the encoding at the end otherwise, and a
second add of the same transaction never changes the pool size. -/
theorem add_transaction_spec (bc : BlockChain) (tx : Transaction) :
    (tx.serialization ∈ bc.transaction_pool → bc.add_transaction tx = bc) ∧
    (tx.serialization ∉ bc.transaction_pool →
      bc.add_transaction tx =
        { bc with transaction_pool := bc.transaction_pool ++ [tx.serialization] }) ∧
    ((bc.add_transaction tx).add_transaction tx).transaction_pool.length =
      (bc.add_transaction tx).transaction_pool.length := by
  refine ⟨fun hmem => ?_, fun hmem => ?_, ?_⟩
  · unfold BlockChain.add_transaction
    rw [if_pos ((contains_iff_mem _ _).mpr hmem)]
  · unfold BlockChain.add_transaction
    rw [if_neg (fun hc => hmem ((contains_iff_mem _ _).mp hc))]
  · by_cases hmem : tx.serialization ∈ bc.transaction_pool
    · unfold BlockChain.add_transaction
      rw [if_pos ((contains_iff_mem _ _).mpr hmem), if_pos ((contains_iff_mem _ _).mpr hmem)]
    · unfold BlockChain.add_transaction
      rw [if_neg (fun hc => hmem ((contains_iff_mem _ _).mp hc))]
      have : tx.serialization ∈ bc.transaction_pool ++ [tx.serialization] :=
        List.mem_append.mpr (Or.inr (List.mem_singleton.mpr rfl))
      rw [if_pos ((contains_iff_mem _ _).mpr this)]

/-- Witness for `add_transaction_spec`: at the concrete state `wBC` the
encoding is not pooled, the add appends it, and a second add keeps the
pool size at its value after the first add. -/
theorem add_transaction_spec_witness :
    (wBC.add_transaction ⟨[1], [2], 3⟩ =
      { wBC with transaction_pool := wBC.transaction_pool ++ [(⟨[1], [2], 3⟩ : Transaction).serialization] }) ∧
    ((wBC.add_transaction ⟨[1], [2], 3⟩).add_transaction ⟨[1], [2], 3⟩).transaction_pool.length =
      (wBC.add_transaction ⟨[1], [2], 3⟩).transaction_pool.length :=
  ⟨(add_transaction_spec wBC ⟨[1], [2], 3⟩).2.1 (by decide),
   (add_transaction_spec wBC ⟨[1], [2], 3⟩).2.2⟩

theorem searchLoop_eq_find (s : BlockSearch) (l : List Block) :
    searchLoop s l = l.find? (critMatches s) := by
  induction l with
  | nil => rfl
  | cons b rest ih =>
    unfold searchLoop
    cases hc : critMatches s b
    · rw [if_neg (by simp [hc]), List.find?_cons_of_neg _ (by simp [hc]), ih]
    · rw [if_pos rfl, List.find?_cons_of_pos _ hc]

/-- Claim C9: on a non-empty chain, index search returns block `i` for
an in-range index and a distinct out-of-range failure carrying `i`
otherwise; every search by value returns the first matching block in
scan order (oldest to newest), or a distinct not-found outcome carrying
the original key; on the empty chain every criterion yields the
empty-chain failure. -/
theorem search_block_spec (bc : BlockChain) :
    (bc.chain = [] → ∀ s, bc.search_block s = .FailOfEmptyBlocks) ∧
    (bc.chain ≠ [] →
      (∀ i, i < bc.chain.length →
        bc.search_block (.SearchByIndex i) = .Success (bc.chain.getD i defaultBlock)) ∧
      (∀ i, bc.chain.length ≤ i → bc.search_block (.SearchByIndex i) = .FailOfIndex i) ∧
      (∀ k, bc.search_block (.SearchByPreviousHash k) =
        match bc.chain.find? (fun b => b.previous_hash == k) with
        | some b => .Success b
        | none => .FailOfPreviousHash k) ∧
      (∀ k, bc.search_block (.SearchByBlockHash k) =
        match bc.chain.find? (fun b => Block.hash b == k) with
        | some b => .Success b
        | none => .FailOfBlockHash k) ∧
      (∀ n, bc.search_block (.SearchByNonce n) =
        match bc.chain.find? (fun b => b.nonce == n) with
        | some b => .Success b
        | none => .FailOfNonce n) ∧
      (∀ t, bc.search_block (.SearchByTimestamp t) =
        match bc.chain.find? (fun b => b.time_stamp == t) with
        | some b => .Success b
        | none => .FailOfTimestamp t) ∧
      (∀ tx, bc.search_block (.SearchByTransaction tx) =
        match bc.chain.find? (fun b => b.transactions.contains tx) with
        | some b => .Success b
        | none => .FailOfTransaction tx)) := by
  constructor
  · intro hch s
    unfold BlockChain.search_block
    rw [if_pos (by simp [List.isEmpty_iff, hch])]
  · intro hch
    have hne : ¬bc.chain.isEmpty = true := by simp [List.isEmpty_iff, hch]
    refine ⟨fun i hi => ?_, fun i hi => ?_, fun k => ?_, fun k => ?_, fun n => ?_, fun t => ?_, fun tx => ?_⟩
    · unfold BlockChain.search_block
      rw [if_neg hne]
      exact if_neg (by omega)
    · unfold BlockChain.search_block
      rw [if_neg hne]
      exact if_pos hi
    · unfold BlockChain.search_block
      rw [if_neg hne, searchLoop_eq_find]
      have hc : critMatches (BlockSearch.SearchByPreviousHash k) =
          (fun b : Block => b.previous_hash == k) := funext fun _ => rfl
      rw [hc]
    · unfold BlockChain.search_block
      rw [if_neg hne, searchLoop_eq_find]
      have hc : critMatches (BlockSearch.SearchByBlockHash k) =
          (fun b : Block => Block.hash b == k) := funext fun _ => rfl
      rw [hc]
    · unfold BlockChain.search_block
      rw [if_neg hne, searchLoop_eq_find]
      have hc : critMatches (BlockSearch.SearchByNonce n) =
          (fun b : Block => b.nonce == n) := funext fun _ => rfl
      rw [hc]
    · unfold BlockChain.search_block
      rw [if_neg hne, searchLoop_eq_find]
      have hc : critMatches (BlockSearch.SearchByTimestamp t) =
          (fun b : Block => b.time_stamp == t) := funext fun _ => rfl
      rw [hc]
    · unfold BlockChain.search_block
      rw [if_neg hne, searchLoop_eq_find]
      have hc : critMatches (BlockSearch.SearchByTransaction tx) =
          (fun b : Block => b.transactions.contains tx) := funext fun _ => rfl
      rw [hc]

/-- Witness for `search_block_spec` at the concrete two-block state:
an in-range index search succeeds with block 1 and an unmatched nonce
search fails carrying the key. -/
theorem search_block_spec_witness :
    wBC.search_block (.SearchByIndex 1) = .Success wBlockB ∧
    wBC.search_block (.SearchByNonce 9) = .FailOfNonce 9 := by
  have h := (search_block_spec wBC).2 (by decide)
  exact ⟨(h.1 1 (by decide)).trans (by decide), (h.2.2.2.2.1 9).trans (by decide)⟩

theorem be8_length (n : Nat) : (be8 n).length = 8 := rfl

theorem fromBE_be8 {n : Nat} (h : n < 18446744073709551616) : fromBE (be8 n) = n := by
  simp only [fromBE, be8, List.foldl_cons, List.foldl_nil]
  omega

/-- Claim C6: decoding the encoding of any transaction — any sender and
recipient byte strings, any unsigned 64-bit value including zero —
reproduces the transaction field-wise. -/
theorem tx_roundtrip (t : Transaction)
    (hs : t.sender_address.length < 18446744073709551616)
    (hr : t.recipient_address.length < 18446744073709551616)
    (hv : t.value < 18446744073709551616) :
    Transaction.deserialization t.serialization = some t := by
  obtain ⟨s, r, v⟩ := t
  simp only at hs hr hv
  simp only [Transaction.serialization, Transaction.deserialization, List.append_assoc]
  have hlen : (be8 s.length ++ (s ++ (be8 r.length ++ (r ++ be8 v)))).length
      = 8 + (s.length + (8 + (r.length + 8))) := by
    simp [be8]
    omega
  rw [if_neg (by omega)]
  rw [List.take_left' (show (be8 s.length).length = 8 from rfl),
      List.drop_left' (show (be8 s.length).length = 8 from rfl),
      fromBE_be8 hs]
  have hlen1 : (s ++ (be8 r.length ++ (r ++ be8 v))).length
      = s.length + (8 + (r.length + 8)) := by simp [be8]; omega
  rw [if_neg (by omega)]
  rw [List.take_left' (rfl : s.length = s.length),
      List.drop_left' (rfl : s.length = s.length)]
  rw [List.take_left' (show (be8 r.length).length = 8 from rfl),
      List.drop_left' (show (be8 r.length).length = 8 from rfl),
      fromBE_be8 hr]
  have hlen2 : (r ++ be8 v).length = r.length + 8 := by simp [be8]
  rw [if_neg (by omega)]
  rw [List.take_left' (rfl : r.length = r.length),
      List.drop_left' (rfl : r.length = r.length)]
  rw [show (8 : Nat) = (be8 v).length from rfl, List.take_length, fromBE_be8 hv]

/-- Witness for `tx_roundtrip` at a concrete transaction. -/
theorem tx_roundtrip_witness :
    (⟨[1, 2], [3], 100⟩ : Transaction).sender_address.length < 18446744073709551616 ∧
    Transaction.deserialization (⟨[1, 2], [3], 100⟩ : Transaction).serialization =
      some ⟨[1, 2], [3], 100⟩ :=
  ⟨by decide, tx_roundtrip ⟨[1, 2], [3], 100⟩ (by decide) (by decide) (by decide)⟩

theorem wrap64_inRange (n : Int) : i64InRange (wrap64 n) := by
  unfold wrap64 i64InRange
  have h1 := Int.emod_nonneg (n + 9223372036854775808)
    (by norm_num : (18446744073709551616 : Int) ≠ 0)
  have h2 := Int.emod_lt_of_pos (n + 9223372036854775808)
    (by norm_num : (0 : Int) < 18446744073709551616)
  omega

theorem wrap64_of_inRange {n : Int} (h : i64InRange n) : wrap64 n = n := by
  unfold wrap64
  unfold i64InRange at h
  have : (n + 9223372036854775808) % 18446744073709551616 = n + 9223372036854775808 :=
    Int.emod_eq_of_lt (by omega) (by omega)
  omega

theorem txApply_eq_spec (address t : List Nat) (total : Int) (h : i64InRange total) :
    txApply address total t = txStep_spec address total t ∧
    i64InRange (txApply address total t) := by
  unfold txApply txStep_spec
  cases Transaction.deserialization t with
  | none => exact ⟨rfl, h⟩
  | some tx =>
    dsimp only
    by_cases h1 : address = tx.recipient_address
    · by_cases h2 : address = tx.sender_address
      · rw [if_pos h1, if_pos h2, if_pos h1.symm, if_pos h2.symm]
        exact ⟨by rw [sub_eq_add_neg], wrap64_inRange _⟩
      · rw [if_pos h1, if_neg h2, if_pos h1.symm, if_neg (fun hh => h2 hh.symm)]
        exact ⟨by rw [add_zero, wrap64_of_inRange (wrap64_inRange _)], wrap64_inRange _⟩
    · by_cases h2 : address = tx.sender_address
      · rw [if_neg h1, if_pos h2, if_neg (fun hh => h1 hh.symm), if_pos h2.symm]
        exact ⟨by rw [add_zero, wrap64_of_inRange h, ← sub_eq_add_neg], wrap64_inRange _⟩
      · rw [if_neg h1, if_neg h2, if_neg (fun hh => h1 hh.symm), if_neg (fun hh => h2 hh.symm)]
        exact ⟨by rw [add_zero, add_zero, wrap64_of_inRange h, wrap64_of_inRange h], h⟩

theorem foldl_txApply (address : List Nat) (l : List (List Nat)) :
    ∀ z : Int, i64InRange z →
      l.foldl (txApply address) z = l.foldl (txStep_spec address) z := by
  induction l with
  | nil => intro z _; rfl
  | cons t rest ih =>
    intro z hz
    obtain ⟨heq, hrange⟩ := txApply_eq_spec address t z hz
    simp only [List.foldl_cons]
    rw [← heq]
    exact ih _ hrange

theorem foldl_range_getD {α β : Type} (l : List α) (f : β → α → β) (z : β) (d : α) :
    (List.range l.length).foldl (fun acc i => f acc (l.getD i d)) z = l.foldl f z := by
  induction l using List.reverseRecOn with
  | nil => rfl
  | append_singleton l a ih =>
    have hlen : (l ++ [a]).length = l.length + 1 := by simp
    rw [hlen, List.range_succ, List.foldl_append, List.foldl_append]
    have hext : (List.range l.length).foldl (fun acc i => f acc ((l ++ [a]).getD i d)) z
        = (List.range l.length).foldl (fun acc i => f acc (l.getD i d)) z :=
      List.foldl_ext _ _ z fun acc i hi =>
        congrArg (f acc) (List.getD_append l [a] d i (List.mem_range.mp hi))
    rw [hext, ih]
    simp [List.getD_append_right l [a] d l.length (le_refl _)]

/-- Claim C8: `calculate_total_amount` equals the spec's balance — the
signed 64-bit sum over every transaction of every block in order,
`+value` for the recipient and `-value` for the sender, recomputed in
full from the chain. -/
theorem total_amount_replays_chain (bc : BlockChain) (address : List Nat) :
    bc.calculate_total_amount address = balance_spec bc address := by
  have h1 : bc.calculate_total_amount address
      = bc.chain.foldl (fun tot b => b.transactions.foldl (txApply address) tot) 0 :=
    foldl_range_getD bc.chain (fun tot b => b.transactions.foldl (txApply address) tot) 0 defaultBlock
  have h2 : ((bc.chain.map Block.transactions).flatten).foldl (txApply address) 0
      = bc.chain.foldl (fun tot b => b.transactions.foldl (txApply address) tot) 0 := by
    rw [List.foldl_flatten, List.foldl_map]
  have h0 : i64InRange 0 := by unfold i64InRange; omega
  unfold balance_spec
  rw [h1, ← h2, foldl_txApply address _ 0 h0]

theorem do_proof_of_work_some :
    ∀ (fuel : Nat) (b : Block) (s : List Char) (b' : Block),
      BlockChain.do_proof_of_work fuel b = some (s, b') →
      b'.previous_hash = b.previous_hash ∧ b'.time_stamp = b.time_stamp ∧
      b'.transactions = b.transactions ∧ powOkP b' := by
  intro fuel
  induction fuel with
  | zero => intro b s b' h; simp [BlockChain.do_proof_of_work] at h
  | succ n ih =>
    intro b s b' h
    unfold BlockChain.do_proof_of_work at h
    dsimp only at h
    split at h
    · obtain ⟨hs, hb⟩ := Prod.mk.injEq .. ▸ Option.some.inj h
      subst hb
      refine ⟨rfl, rfl, rfl, ?_⟩
      assumption
    · have := ih _ _ _ h
      simpa [Block.add_assign] using this

theorem create_block_some (bc : BlockChain) (ph : List Nat) (t fuel : Nat) (bc' : BlockChain)
    (h : bc.create_block ph t fuel = some bc') :
    ∃ b : Block, bc'.chain = bc.chain ++ [b] ∧ b.previous_hash = ph ∧ b.time_stamp = t ∧
      b.transactions = bc.transaction_pool ∧ powOkP b ∧
      bc'.transaction_pool = [] ∧ bc'.blockchain_address = bc.blockchain_address := by
  unfold BlockChain.create_block at h
  dsimp only at h
  split at h
  · exact absurd h (by simp)
  · next s sealed heq =>
    obtain ⟨hprev, htime, htxs, hpow⟩ := do_proof_of_work_some _ _ _ _ heq
    obtain rfl := Option.some.inj h
    exact ⟨sealed, rfl, by simpa [Block.new] using hprev, by simpa [Block.new] using htime,
           by simpa [Block.new] using htxs, hpow, rfl, rfl⟩

theorem getLast_eq_getD (l : List Block) (h : l ≠ []) :
    l.getLast h = l.getD (l.length - 1) defaultBlock := by
  have hp : 0 < l.length := List.length_pos.mpr h
  rw [List.getD_eq_getElem _ _ (by omega), List.getLast_eq_getElem]

theorem last_block_of_empty (bc : BlockChain) (h : bc.chain = []) :
    bc.last_block = .panicked ("Blockchain is empty") := by
  simp [BlockChain.last_block, h]

theorem mining_some (bc : BlockChain) (t fuel : Nat) (bc' : BlockChain)
    (h : bc.mining t fuel = some bc') :
    bc.chain ≠ [] ∧ ∃ b : Block,
      bc'.chain = bc.chain ++ [b] ∧
      b.previous_hash = Block.hash (bc.chain.getD (bc.chain.length - 1) defaultBlock) ∧
      powOkP b ∧ bc'.transaction_pool = [] := by
  unfold BlockChain.mining at h
  dsimp only at h
  have hchain := (add_transaction_chain bc ⟨BlockChain.MINING_SENDER, bc.blockchain_address, BlockChain.MINING_REWARD⟩).1
  by_cases hne : bc.chain = []
  · rw [last_block_of_empty] at h
    · exact absurd h (by simp)
    · rw [hchain]; exact hne
  · have hne1 : (bc.add_transaction ⟨BlockChain.MINING_SENDER, bc.blockchain_address, BlockChain.MINING_REWARD⟩).chain ≠ [] := by
      rw [hchain]; exact hne
    rw [last_block_of_ne_nil _ hne1] at h
    obtain ⟨b, hch, hprev, -, -, hpow, hpool, -⟩ := create_block_some _ _ _ _ _ h
    refine ⟨hne, b, by rw [hch, hchain], ?_, hpow, hpool⟩
    rw [hprev, getLast_eq_getD _ hne1]
    rw [hchain]


theorem new_some (address : List Nat) (t0 t1 fuel : Nat) (bc : BlockChain)
    (h : BlockChain.new address t0 t1 fuel = some bc) :
    ∃ b : Block, bc.chain = [Block.new 0 [0, 32] t0, b] ∧
      b.previous_hash = Block.hash (Block.new 0 [0, 32] t0) ∧ powOkP b ∧
      bc.transaction_pool = [] := by
  unfold BlockChain.new at h
  dsimp only at h
  obtain ⟨hne, b, hchain, hprev, hpow, hpool⟩ := mining_some _ _ _ _ h
  exact ⟨b, by simpa using hchain, by simpa using hprev, hpow, hpool⟩

/-- Claim C1: for every owner address, a chain successfully built by
`new` has at least two blocks (genesis plus the first mined block) and
its genesis block has nonce 0 — but `previous_hash` is the TWO-byte
vector `[0, 32]` (`vec![0 as u8, 32]`), not 32 zero bytes as the spec
intends (`vec![0u8; 32]`). -/
theorem genesis_shape_of_new (address : List Nat) (t0 t1 fuel : Nat) (bc : BlockChain)
    (h : BlockChain.new address t0 t1 fuel = some bc) :
    2 ≤ bc.chain.length ∧ (bc.chain.getD 0 defaultBlock).nonce = 0 ∧
    (bc.chain.getD 0 defaultBlock).previous_hash = [0, 32] := by
  obtain ⟨b, hchain, -, -, -⟩ := new_some address t0 t1 fuel bc h
  rw [hchain]
  exact ⟨by simp, rfl, rfl⟩

/-- Claim C4 (amended): in every state reachable through `new`,
`mining` and `add_transaction` — that is, when `create_block` is only
exercised by `mining` with the digest of the last block — each block's
`previous_hash` equals the digest of the block immediately before it. -/
theorem linkage_invariant_core (bc : BlockChain) (hr : ReachableCore bc) :
    ∀ i, i + 1 < bc.chain.length →
      (bc.chain.getD (i + 1) defaultBlock).previous_hash
        = Block.hash (bc.chain.getD i defaultBlock) := by
  induction hr with
  | init address t0 t1 fuel bc0 h =>
    obtain ⟨b, hchain, hprev, -, -⟩ := new_some address t0 t1 fuel bc0 h
    intro i hi
    rw [hchain] at hi ⊢
    have hz : i = 0 := by simp at hi; omega
    subst hz
    simpa using hprev
  | mine bc0 t fuel bc' hr0 hm ih =>
    obtain ⟨hne, b, hchain, hprev, -, -⟩ := mining_some bc0 t fuel bc' hm
    intro i hi
    rw [hchain] at hi ⊢
    rw [List.length_append] at hi
    simp only [List.length_singleton] at hi
    have hlenpos : 0 < bc0.chain.length := List.length_pos.mpr hne
    by_cases hlt : i + 1 < bc0.chain.length
    · rw [List.getD_append _ _ _ _ hlt, List.getD_append _ _ _ _ (by omega)]
      exact ih i hlt
    · have hi1 : i + 1 = bc0.chain.length := by omega
      rw [List.getD_append_right _ _ _ _ (by omega), List.getD_append _ _ _ _ (by omega), hi1,
          Nat.sub_self]
      have : i = bc0.chain.length - 1 := by omega
      rw [this]
      exact hprev
  | addTx bc0 tx hr0 ih =>
    intro i hi
    have hc := (add_transaction_chain bc0 tx).1
    rw [hc] at hi ⊢
    exact ih i hi

theorem powOk_append (l : List Block) (b : Block) (hb : powOkP b)
    (ih : ∀ i, 0 < i → i < l.length → powOkP (l.getD i defaultBlock)) :
    ∀ i, 0 < i → i < (l ++ [b]).length → powOkP ((l ++ [b]).getD i defaultBlock) := by
  intro i h0 hlen
  rw [List.length_append, List.length_singleton] at hlen
  by_cases hlt : i < l.length
  · rw [List.getD_append _ _ _ _ hlt]
    exact ih i h0 hlt
  · have : i = l.length := by omega
    subst this
    rw [List.getD_append_right _ _ _ _ (le_refl _), Nat.sub_self]
    exact hb

/-- Claim C5: in every reachable chain state, every block except the
genesis block has a digest whose hexadecimal representation begins with
`DIFFICULTY` (= 3) `'0'` characters. -/
theorem difficulty_invariant (bc : BlockChain) (hr : Reachable bc) :
    ∀ i, 0 < i → i < bc.chain.length → powOkP (bc.chain.getD i defaultBlock) := by
  induction hr with
  | init address t0 t1 fuel bc0 h =>
    obtain ⟨b, hchain, -, hpow, -⟩ := new_some address t0 t1 fuel bc0 h
    intro i h0 hlen
    rw [hchain] at hlen ⊢
    have h1 : i = 1 := by simp at hlen; omega
    subst h1
    simpa using hpow
  | mine bc0 t fuel bc' hr0 hm ih =>
    obtain ⟨-, b, hchain, -, hpow, -⟩ := mining_some bc0 t fuel bc' hm
    rw [hchain]
    exact powOk_append bc0.chain b hpow ih
  | createB bc0 ph t fuel bc' hr0 hcb ih =>
    obtain ⟨b, hchain, -, -, -, hpow, -, -⟩ := create_block_some bc0 ph t fuel bc' hcb
    rw [hchain]
    exact powOk_append bc0.chain b hpow ih
  | addTx bc0 tx hr0 ih =>
    have hc := (add_transaction_chain bc0 tx).1
    rw [hc]
    exact ih

/-- Counterexample to claim C4: `create_block` is public and takes a
caller-chosen `previous_hash`; calling it with `[]` on a freshly built
chain yields a reachable three-block state whose block 2 has a
`previous_hash` different from the digest of block 1. -/
theorem linkage_fails_via_create_block :
    Reachable demoBad ∧ 2 < demoBad.chain.length ∧
    (demoBad.chain.getD 2 defaultBlock).previous_hash
      ≠ Block.hash (demoBad.chain.getD 1 defaultBlock) := by
  have h1 : BlockChain.new [97] 1700000000000000000 1700000000000018336 1 = some demoBC := by
    decide
  have h2 : demoBC.create_block [] 1700000000000018462 1 = some demoBad := by decide
  exact ⟨Reachable.createB demoBC [] 1700000000000018462 1 demoBad
           (Reachable.init [97] 1700000000000000000 1700000000000018336 1 demoBC h1) h2,
         by decide, by decide⟩

/-- Witness for `linkage_invariant_core` at the freshly built chain. -/
theorem linkage_invariant_core_witness :
    ReachableCore demoBC ∧ 0 + 1 < demoBC.chain.length ∧
    (demoBC.chain.getD 1 defaultBlock).previous_hash
      = Block.hash (demoBC.chain.getD 0 defaultBlock) := by
  have h1 : BlockChain.new [97] 1700000000000000000 1700000000000018336 1 = some demoBC := by
    decide
  have hr := ReachableCore.init [97] 1700000000000000000 1700000000000018336 1 demoBC h1
  exact ⟨hr, by decide, linkage_invariant_core demoBC hr 0 (by decide)⟩

/-- Witness for `difficulty_invariant` at the freshly built chain. -/
theorem difficulty_invariant_witness :
    Reachable demoBC ∧ 0 < 1 ∧ 1 < demoBC.chain.length ∧
    powOkP (demoBC.chain.getD 1 defaultBlock) := by
  have h1 : BlockChain.new [97] 1700000000000000000 1700000000000018336 1 = some demoBC := by
    decide
  have hr := Reachable.init [97] 1700000000000000000 1700000000000018336 1 demoBC h1
  exact ⟨hr, by decide, by decide, difficulty_invariant demoBC hr 1 (by decide) (by decide)⟩

/-- Witness for `genesis_shape_of_new`: the construction succeeds at the
demo timestamps and the genesis facts hold there. -/
theorem genesis_shape_of_new_witness :
    BlockChain.new [97] 1700000000000000000 1700000000000018336 1 = some demoBC ∧
    (2 ≤ demoBC.chain.length ∧ (demoBC.chain.getD 0 defaultBlock).nonce = 0 ∧
     (demoBC.chain.getD 0 defaultBlock).previous_hash = [0, 32]) := by
  have h1 : BlockChain.new [97] 1700000000000000000 1700000000000018336 1 = some demoBC := by
    decide
  exact ⟨h1, genesis_shape_of_new [97] 1700000000000000000 1700000000000018336 1 demoBC h1⟩
